import Mathlib

/-!
Verification of the PUMA network-inference core (`pypanda/puma.py`).

The numerical code is embedded shallowly:

* matrix cells are `NVal := Option ℚ`, where `none` plays the role of the
  IEEE `NaN` that the source produces at `0/0`, `sqrt` of a negative
  number, and statistics of empty slices, and `some q` is an ordinary
  (exact) numeric value;
* `math.sqrt` and `math.exp` are abstract parameters
  `sqrtK expK : ℚ → ℚ`: every theorem below holds for an arbitrary
  interpretation of these functions, hence in particular for the real
  square root and exponential;
* NumPy whole-array operations become per-cell functions on
  `Fin t → Fin g → NVal`.
-/

/-!
Rational arithmetic is expressed through the numerator/denominator
primitives `mkRat` and `Rat.divInt`, so that closed instances of every
definition reduce definitionally; the bridging lemmas `raddQ_eq` … below
identify these with the ambient field operations of `ℚ`, and all symbolic
reasoning goes through the field operations.
-/

/-- Rational addition, `x + y`. -/
def raddQ (x y : ℚ) : ℚ :=
  mkRat (x.num * (y.den : ℤ) + y.num * (x.den : ℤ)) (x.den * y.den)

/-- Rational subtraction, `x - y`. -/
def rsubQ (x y : ℚ) : ℚ :=
  mkRat (x.num * (y.den : ℤ) - y.num * (x.den : ℤ)) (x.den * y.den)

/-- Rational multiplication, `x * y`. -/
def rmulQ (x y : ℚ) : ℚ := mkRat (x.num * y.num) (x.den * y.den)

/-- Rational division, `x / y` (with the `x / 0 = 0` convention). -/
def rdivQ (x y : ℚ) : ℚ := Rat.divInt (x.num * (y.den : ℤ)) ((x.den : ℤ) * y.num)

/-- Rational absolute value (`np.abs`). -/
def rabsQ (x : ℚ) : ℚ := if x < 0 then -x else x

/-- Rational sum of a list. -/
def rsumQ (l : List ℚ) : ℚ := l.foldr raddQ 0

/-- A matrix cell value: `none` is the source's IEEE NaN, `some q` a number. -/
abbrev NVal := Option ℚ

/-- Addition; NaN propagates (`x + nan = nan`). -/
def qadd (a b : NVal) : NVal := a.bind fun x => b.map fun y => raddQ x y

/-- Subtraction; NaN propagates. -/
def qsub (a b : NVal) : NVal := a.bind fun x => b.map fun y => rsubQ x y

/-- Multiplication; NaN propagates. -/
def qmul (a b : NVal) : NVal := a.bind fun x => b.map fun y => rmulQ x y

/-- Division; NaN propagates, and division by zero is undefined.  In the
source every division by zero has a zero numerator (`0/0`), which is NaN in
IEEE arithmetic, so mapping it to `none` is faithful. -/
def qdiv (a b : NVal) : NVal :=
  a.bind fun x => b.bind fun y => if y = 0 then none else some (rdivQ x y)

/-- Absolute value (`np.abs`); NaN propagates. -/
def qabs (a : NVal) : NVal := a.map fun x => rabsQ x

/-- `np.sqrt` under the abstract square-root interpretation `sqrtK`:
NaN on NaN and on negative arguments, `sqrtK` otherwise. -/
def qsqrt (sqrtK : ℚ → ℚ) (a : NVal) : NVal :=
  a.bind fun x => if x < 0 then none else some (sqrtK x)

/-- Sum of a list of cells (`np.sum`); NaN propagates. -/
def nsum (l : List NVal) : NVal := l.foldr qadd (some 0)

/-- Sum of `f` over `Fin k`. -/
def nsumFin (k : ℕ) (f : Fin k → NVal) : NVal := nsum ((List.finRange k).map f)

/-- `np.dot` of two vectors. -/
def dotNV {k : ℕ} (x y : Fin k → NVal) : NVal :=
  nsumFin k fun i => qmul (x i) (y i)

/-!
## Result expander (`puma_loop`, lines 191–197)

The source builds the expanded result table as

```
tfs   = np.tile(self.unique_tfs, (len(self.gene_names), 1)).flatten()
genes = np.repeat(self.gene_names, self.num_tfs)
motif = self.motif_matrix_unnormalized.flatten(order='F')
force = self.motif_matrix.flatten(order='F')
self.export_puma_results = np.column_stack((tfs, genes, motif, force))
```

Arrays are modelled as total functions on `ℕ`; an `m × n` array is a
function of a row index `< m` and a column index `< n`, and the flat
vectors built here have length `g * t` (`t` TFs, `g` genes).
-/

/-- `np.tile(labels, (g, 1))`: a `g × t` array whose every row is `labels`. -/
def tileMat (labels : ℕ → String) : ℕ → ℕ → String := fun _ c => labels c

/-- `.flatten()` (row-major, order `'C'`) of an array with `t` columns:
flat position `k` holds cell `(k / t, k % t)`. -/
def flattenC {α : Type} (t : ℕ) (A : ℕ → ℕ → α) : ℕ → α :=
  fun k => A (k / t) (k % t)

/-- `.flatten(order='F')` (column-major) of an array with `t` rows:
flat position `k` holds cell `(k % t, k / t)`. -/
def flattenF {α : Type} (t : ℕ) (M : ℕ → ℕ → α) : ℕ → α :=
  fun k => M (k % t) (k / t)

/-- `np.repeat(names, t)`: each entry of `names` repeated `t` times. -/
def repeatV {α : Type} (t : ℕ) (names : ℕ → α) : ℕ → α :=
  fun k => names (k / t)

/-- The expanded result table (`np.column_stack((tfs, genes, motif, force))`):
row `k` (for `k < g * t`) of the table, where `t` is the number of TFs,
`unique_tfs`/`gene_names` the label axes, and `motif_u`/`motif_n` the
unnormalized prior and final (posterior) `t × g` weight matrices. -/
def export_puma_results (t : ℕ) (unique_tfs gene_names : ℕ → String)
    (motif_u motif_n : ℕ → ℕ → NVal) : ℕ → String × String × NVal × NVal :=
  let tfs := flattenC t (tileMat unique_tfs)
  let genes := repeatV t gene_names
  let motif := flattenF t motif_u
  let force := flattenF t motif_n
  fun k => (tfs k, genes k, motif k, force k)

/-!
## Constraint-index construction (`__init__`, lines 42–47)

```
TFNames = self.unique_tfs                       -- sorted(set(...)), so sorted & duplicate-free
sort_idx = np.argsort(TFNames)
self.s1 = sort_idx[np.searchsorted(TFNames, miR, sorter=sort_idx)]
```

`np.argsort` returns index order that sorts the array (any correct sort;
the keys here are distinct, so the result is unique); it is modelled with
insertion sort on the indices.  `np.searchsorted(a, v, sorter=s)` with the
default `side='left'` returns, for each `v`, the number of elements of the
sorted view `a[s]` that are strictly smaller than `v`.  The final fancy
indexing `sort_idx[...]` raises `IndexError` when an insertion position
equals `len(a)`, hence the `Option` result.
-/

/-- `np.argsort(names)`: a permutation of `[0, …, names.length)` listing
indices in order of increasing value.  Identifiers are drawn from an
arbitrary decidable linear order `α` (Python compares the identifier
strings lexicographically, which is one such order). -/
def argsortM {α : Type} [LinearOrder α] [Inhabited α] (names : List α) : List ℕ :=
  List.insertionSort (fun i j => names.getD i default ≤ names.getD j default)
    (List.range names.length)

/-- `np.searchsorted(a, v)` (side `'left'`, `a` sorted): the number of
elements of `a` strictly below `v`, i.e. the left insertion position. -/
def searchsortedLeft {α : Type} [LinearOrder α] (a : List α) (v : α) : ℕ :=
  a.countP fun x => decide (x < v)

/-- `self.s1 = sort_idx[np.searchsorted(TFNames, miR, sorter=sort_idx)]`:
the constraint-index list, or `none` when the fancy indexing raises
`IndexError` (an insertion position falling past the end of `sort_idx`). -/
def s1Model {α : Type} [LinearOrder α] [Inhabited α]
    (TFNames miR : List α) : Option (List ℕ) :=
  let sortIdx := argsortM TFNames
  let sortedView := sortIdx.map fun i => TFNames.getD i default
  let pos := miR.map fun v => searchsortedLeft sortedView v
  if pos.all fun p => p < sortIdx.length then
    some (pos.map fun p => sortIdx.getD p 0)
  else
    none

/-- The claim's reading of the construction: the positions (first indices)
of exactly those miRNA names that occur among the TF names, misses dropped. -/
def claimedS1 {α : Type} [LinearOrder α] [DecidableEq α]
    (TFNames miR : List α) : List ℕ :=
  (miR.filter fun v => decide (v ∈ TFNames)).map fun v => TFNames.indexOf v

/-!
## Matrix normalizer (`_normalize_network`, lines 112–126)

`scipy.stats.zscore(x, axis=k)` is `(x - mean) / std` along axis `k` with
population (`ddof = 0`) standard deviation; a zero-variance slice yields
`0/0 = NaN`, and a NaN input cell poisons its whole slice.  The source:

```
norm_col = zscore(x, axis=0)
norm_row = norm_col.T if square else zscore(x, axis=1)
normalized_matrix = (norm_col + norm_row) / math.sqrt(2)
norm_total = (x - np.mean(x)) / np.std(x)
normalized_matrix[nan_col] = (norm_row[nan_col] + norm_total[nan_col]) / math.sqrt(2)
normalized_matrix[nan_row] = (norm_col[nan_row] + norm_total[nan_row]) / math.sqrt(2)
normalized_matrix[nan_col & nan_row] = 2 * norm_col[nan_col & nan_row] / math.sqrt(2)
```
-/

/-- Mean of `f` over `Fin k` (`np.mean`; the empty mean is NaN). -/
def nmeanFin (k : ℕ) (f : Fin k → NVal) : NVal :=
  qdiv (nsumFin k f) (some (k : ℚ))

/-- Population standard deviation of `f` over `Fin k` (`np.std`). -/
def stdFin (sqrtK : ℚ → ℚ) (k : ℕ) (f : Fin k → NVal) : NVal :=
  let mu := nmeanFin k f
  qsqrt sqrtK (nmeanFin k fun i => qmul (qsub (f i) mu) (qsub (f i) mu))

/-- `zscore(x, axis=0)`: per-column z-score. -/
def norm_colF (sqrtK : ℚ → ℚ) {m n : ℕ} (x : Fin m → Fin n → NVal) :
    Fin m → Fin n → NVal := fun i j =>
  qdiv (qsub (x i j) (nmeanFin m fun r => x r j))
    (stdFin sqrtK m fun r => x r j)

/-- `zscore(x, axis=1)`: per-row z-score. -/
def zscoreRowF (sqrtK : ℚ → ℚ) {m n : ℕ} (x : Fin m → Fin n → NVal) :
    Fin m → Fin n → NVal := fun i j =>
  qdiv (qsub (x i j) (nmeanFin n fun c => x i c))
    (stdFin sqrtK n fun c => x i c)

/-- `norm_row`: the transposed column z-score when `x` is square, the
row z-score otherwise (lines 114–117). -/
def norm_rowF (sqrtK : ℚ → ℚ) {m n : ℕ} (x : Fin m → Fin n → NVal) :
    Fin m → Fin n → NVal :=
  if h : m = n then
    fun i j => norm_colF sqrtK x (Fin.cast h.symm j) (Fin.cast h i)
  else
    zscoreRowF sqrtK x

/-- `np.mean(x)` over the whole matrix. -/
def totMeanF {m n : ℕ} (x : Fin m → Fin n → NVal) : NVal :=
  qdiv (nsumFin m fun i => nsumFin n fun j => x i j) (some ((m * n : ℕ) : ℚ))

/-- `np.std(x)` over the whole matrix. -/
def totStdF (sqrtK : ℚ → ℚ) {m n : ℕ} (x : Fin m → Fin n → NVal) : NVal :=
  qsqrt sqrtK
    (qdiv
      (nsumFin m fun i => nsumFin n fun j =>
        qmul (qsub (x i j) (totMeanF x)) (qsub (x i j) (totMeanF x)))
      (some ((m * n : ℕ) : ℚ)))

/-- `norm_total = (x - np.mean(x)) / np.std(x)` per cell. -/
def norm_totalF (sqrtK : ℚ → ℚ) {m n : ℕ} (x : Fin m → Fin n → NVal) :
    Fin m → Fin n → NVal := fun i j =>
  qdiv (qsub (x i j) (totMeanF x)) (totStdF sqrtK x)

/-- `_normalize_network`, with the three NaN-mask overwrites applied in
source order. -/
def _normalize_network (sqrtK : ℚ → ℚ) {m n : ℕ} (x : Fin m → Fin n → NVal) :
    Fin m → Fin n → NVal :=
  let norm_col := norm_colF sqrtK x
  let norm_row := norm_rowF sqrtK x
  let base := fun i j => qdiv (qadd (norm_col i j) (norm_row i j)) (some (sqrtK 2))
  let norm_total := norm_totalF sqrtK x
  let step1 := fun i j =>
    if norm_col i j = none then
      qdiv (qadd (norm_row i j) (norm_total i j)) (some (sqrtK 2))
    else base i j
  let step2 := fun i j =>
    if norm_row i j = none then
      qdiv (qadd (norm_col i j) (norm_total i j)) (some (sqrtK 2))
    else step1 i j
  fun i j =>
    if norm_col i j = none ∧ norm_row i j = none then
      qdiv (qmul (some 2) (norm_col i j)) (some (sqrtK 2))
    else step2 i j

/-!
## The PUMA convergence loop (`puma_loop`, lines 128–198)

Fixed scalars of the loop: `alpha = 0.1` and the convergence threshold
`0.001`.  Python float comparisons with NaN are false, so the `while`
guard and the inner `if` both treat a NaN hamming as converged; `nvalGT`
reproduces that.
-/

/-- The fixed learning rate `alpha = 0.1` (line 157). -/
def alphaC : ℚ := mkRat 1 10

/-- The fixed convergence threshold `0.001` (lines 158 and 165). -/
def thresholdC : ℚ := mkRat 1 1000

/-- `a > c` as Python evaluates it on floats: false when `a` is NaN. -/
def nvalGT (a : NVal) (c : ℚ) : Bool :=
  match a with
  | none => false
  | some x => decide (c < x)

/-- `t_function(x, y)` (two-argument form, lines 137–139):
`a = x·y`, divided per cell `(i,j)` by
`sqrt(colSumSq_j(y) + rowSumSq_i(x) - |a[i,j]|)`. -/
def t_function2 (sqrtK : ℚ → ℚ) {p k q : ℕ}
    (x : Fin p → Fin k → NVal) (y : Fin k → Fin q → NVal) :
    Fin p → Fin q → NVal := fun i j =>
  let a := dotNV (x i) fun r => y r j
  qdiv a
    (qsqrt sqrtK
      (qsub
        (qadd (nsumFin k fun r => qmul (y r j) (y r j))
          (nsumFin k fun r => qmul (x i r) (x i r)))
        (qabs a)))

/-- `t_function(x)` (single-argument form, lines 133–136):
`a = x·xᵗ`, `s = rowSumSq(x)`, divided per cell `(i,j)` by
`sqrt(s[j] + s[i] - |a[i,j]|)`. -/
def t_function1 (sqrtK : ℚ → ℚ) {p k : ℕ} (x : Fin p → Fin k → NVal) :
    Fin p → Fin p → NVal := fun i j =>
  let s := fun r : Fin p => nsumFin k fun c => qmul (x r c) (x r c)
  let a := dotNV (x i) (x j)
  qdiv a (qsqrt sqrtK (qsub (qadd (s j) (s i)) (qabs a)))

/-- `np.nanstd(·)` of one row: population standard deviation of the
non-NaN entries; NaN when every entry is NaN (empty slice). -/
def nanstdList (sqrtK : ℚ → ℚ) (l : List NVal) : NVal :=
  let vals := l.filterMap id
  if vals.length = 0 then none
  else
    let c : ℚ := vals.length
    let mu := rdivQ (rsumQ vals) c
    some (sqrtK (rdivQ (rsumQ (vals.map fun v => rmulQ (rsubQ v mu) (rsubQ v mu))) c))

/-- `update_diagonal(D, num, alpha, step)` (lines 142–147): set the
diagonal to NaN, take `np.nanstd` of each row, and refill the diagonal
with `diagonal_std * num * exp(2 * alpha * step)`. -/
def update_diagonal (sqrtK expK : ℚ → ℚ) {n : ℕ}
    (D : Fin n → Fin n → NVal) (num alpha : ℚ) (step : ℕ) :
    Fin n → Fin n → NVal :=
  let D1 : Fin n → Fin n → NVal := fun i j => if i = j then none else D i j
  let diagonal_std : Fin n → NVal := fun i =>
    nanstdList sqrtK ((List.finRange n).map fun j => D1 i j)
  let diagonal_fill : Fin n → NVal := fun i =>
    qmul (qmul (diagonal_std i) (some num)) (some (expK (rmulQ (rmulQ 2 alpha) (step : ℚ))))
  fun i j => if i = j then diagonal_fill i else D1 i j

/-- The constraint mask (lines 173–176):

```
TFCoopDiag = ppi_matrix.diagonal()
ppi_matrix[self.s1] = TFCoopInit[self.s1]
ppi_matrix[:, self.s1] = TFCoopInit[:, self.s1]
np.fill_diagonal(ppi_matrix, TFCoopDiag)
```

`ndarray.diagonal()` returns a read-only *view* (NumPy ≥ 1.9, 2014), not a
copy, so `TFCoopDiag` aliases the diagonal of `ppi_matrix` itself: by the
time `np.fill_diagonal` runs, the view already holds the values written by
the row and column overwrites, and the fill writes each diagonal entry
onto itself — a no-op.  The aliasing is modelled by reading `TFCoopDiag`
from the matrix as it stands at fill time, after both overwrites. -/
def maskPPI {t : ℕ} (S : Finset (Fin t))
    (TFCoopInit M : Fin t → Fin t → NVal) : Fin t → Fin t → NVal :=
  let rowset : Fin t → Fin t → NVal := fun i j =>
    if i ∈ S then TFCoopInit i j else M i j
  let colset : Fin t → Fin t → NVal := fun i j =>
    if j ∈ S then TFCoopInit i j else rowset i j
  let TFCoopDiag : Fin t → NVal := fun i => colset i i
  fun i j => if i = j then TFCoopDiag i else colset i j

/-- The mutable state of the `while` loop: the three matrices plus the
`step` counter and the last computed `hamming`. -/
structure PumaState (t g : ℕ) where
  correlation_matrix : Fin g → Fin g → NVal
  motif_matrix : Fin t → Fin g → NVal
  ppi_matrix : Fin t → Fin t → NVal
  step : ℕ
  hamming : NVal

/-- `W = 0.5 * (t_function(ppi_matrix, motif_matrix) +
t_function(motif_matrix, correlation_matrix))` (line 160). -/
def pumaW (sqrtK : ℚ → ℚ) {t g : ℕ} (s : PumaState t g) :
    Fin t → Fin g → NVal := fun i j =>
  qmul (some (mkRat 1 2))
    (qadd (t_function2 sqrtK s.ppi_matrix s.motif_matrix i j)
      (t_function2 sqrtK s.motif_matrix s.correlation_matrix i j))

/-- `hamming = np.abs(motif_matrix - W).mean()` (line 161). -/
def computedHamming (sqrtK : ℚ → ℚ) {t g : ℕ} (s : PumaState t g) : NVal :=
  totMeanF fun i j => qabs (qsub (s.motif_matrix i j) (pumaW sqrtK s i j))

/-- The step-3 blend `motif_matrix = (1-alpha)*motif_matrix + alpha*W`
(lines 162–163). -/
def motifBlend (sqrtK : ℚ → ℚ) {t g : ℕ} (s : PumaState t g) :
    Fin t → Fin g → NVal := fun i j =>
  qadd (qmul (some (rsubQ 1 alphaC)) (s.motif_matrix i j))
    (qmul (some alphaC) (pumaW sqrtK s i j))

/-- The PPI update before the constraint mask (lines 167–170):
`ppi = update_diagonal(t_function(motif_matrix), num_tfs, alpha, step)`
blended as `ppi_matrix = (1-alpha)*ppi_matrix + alpha*ppi`, using the
already-updated `motif_matrix`. -/
def ppiBlend (sqrtK expK : ℚ → ℚ) {t g : ℕ} (s : PumaState t g) :
    Fin t → Fin t → NVal :=
  let motif1 := motifBlend sqrtK s
  let ppi := update_diagonal sqrtK expK (t_function1 sqrtK motif1)
    (t : ℚ) alphaC s.step
  fun i j =>
    qadd (qmul (some (rsubQ 1 alphaC)) (s.ppi_matrix i j))
      (qmul (some alphaC) (ppi i j))

/-- The correlation update (lines 179–182):
`motif = update_diagonal(t_function(motif_matrix.T), num_genes, alpha, step)`
blended into `correlation_matrix`. -/
def corrBlend (sqrtK expK : ℚ → ℚ) {t g : ℕ} (s : PumaState t g) :
    Fin g → Fin g → NVal :=
  let motif1 := motifBlend sqrtK s
  let motifT := update_diagonal sqrtK expK
    (t_function1 sqrtK fun j i => motif1 i j) (g : ℚ) alphaC s.step
  fun i j =>
    qadd (qmul (some (rsubQ 1 alphaC)) (s.correlation_matrix i j))
      (qmul (some alphaC) (motifT i j))

/-- One iteration of the `while` body (lines 159–187): compute `W` and
`hamming`, blend `motif_matrix`, and, only when `hamming > 0.001`, update
`ppi_matrix` (blend + constraint mask) and `correlation_matrix`; `step`
always advances. -/
def pumaStep (sqrtK expK : ℚ → ℚ) {t g : ℕ} (S : Finset (Fin t))
    (TFCoopInit : Fin t → Fin t → NVal) (s : PumaState t g) :
    PumaState t g :=
  let hamming := computedHamming sqrtK s
  let motif1 := motifBlend sqrtK s
  if nvalGT hamming thresholdC then
    { correlation_matrix := corrBlend sqrtK expK s
      motif_matrix := motif1
      ppi_matrix := maskPPI S TFCoopInit (ppiBlend sqrtK expK s)
      step := s.step + 1
      hamming := hamming }
  else
    { s with motif_matrix := motif1, step := s.step + 1, hamming := hamming }

/-- The `while hamming > 0.001` loop with explicit fuel (the source has no
iteration cap; `fuel` bounds the recursion without changing which state is
reached once the guard fails). -/
def puma_loop (sqrtK expK : ℚ → ℚ) {t g : ℕ} (S : Finset (Fin t))
    (TFCoopInit : Fin t → Fin t → NVal) :
    ℕ → PumaState t g → PumaState t g
  | 0, s => s
  | fuel + 1, s =>
    if nvalGT s.hamming thresholdC then
      puma_loop sqrtK expK S TFCoopInit fuel (pumaStep sqrtK expK S TFCoopInit s)
    else s

/-- Entry into the loop (lines 153–157): `TFCoopInit` is a copy of the
incoming `ppi_matrix`, `step = 0`, `hamming = 1`. -/
def puma_loop_run (sqrtK expK : ℚ → ℚ) {t g : ℕ} (S : Finset (Fin t))
    (fuel : ℕ) (correlation : Fin g → Fin g → NVal)
    (motif : Fin t → Fin g → NVal) (ppi : Fin t → Fin t → NVal) :
    PumaState t g :=
  puma_loop sqrtK expK S ppi fuel
    { correlation_matrix := correlation
      motif_matrix := motif
      ppi_matrix := ppi
      step := 0
      hamming := some 1 }

/-!
## Concrete instances

Small closed inputs on which the theorems below are instantiated.
-/

/-- A 1×1 all-ones loop state; its next hamming statistic is `0`. -/
def stateOne : PumaState 1 1 :=
  { correlation_matrix := fun _ _ => some 1
    motif_matrix := fun _ _ => some 1
    ppi_matrix := fun _ _ => some 1
    step := 0
    hamming := some 1 }

/-- A 1×1 state with PPI weight 4; its next hamming statistic is `9/26`. -/
def stateFour : PumaState 1 1 :=
  { correlation_matrix := fun _ _ => some 1
    motif_matrix := fun _ _ => some 1
    ppi_matrix := fun _ _ => some 4
    step := 0
    hamming := some 1 }

/-- A concrete 2×2 matrix. -/
def exM2 : Fin 2 → Fin 2 → NVal := fun i j => some ((i.val * 2 + j.val : ℕ) : ℚ)

/-- Concrete TF labels for two TFs. -/
def tfLabels : ℕ → String := fun k => ["A", "B"].getD k ""

/-- Concrete gene labels for two genes. -/
def geneLabels : ℕ → String := fun k => ["x", "y"].getD k ""

/-- A concrete 2×2 weight matrix, cell `(i, j)` holding `2*i + j`. -/
def weightM : ℕ → ℕ → NVal := fun i j => some ((2 * i + j : ℕ) : ℚ)

/-!
## Bridging lemmas: the reducible rational primitives are the field operations
-/

theorem raddQ_eq (x y : ℚ) : raddQ x y = x + y := by
  have hx : (x.den : ℚ) ≠ 0 := Nat.cast_ne_zero.mpr x.den_nz
  have hy : (y.den : ℚ) ≠ 0 := Nat.cast_ne_zero.mpr y.den_nz
  rw [raddQ, Rat.mkRat_eq_div]
  push_cast
  conv_rhs => rw [← Rat.num_div_den x, ← Rat.num_div_den y]
  field_simp

theorem rsubQ_eq (x y : ℚ) : rsubQ x y = x - y := by
  have hx : (x.den : ℚ) ≠ 0 := Nat.cast_ne_zero.mpr x.den_nz
  have hy : (y.den : ℚ) ≠ 0 := Nat.cast_ne_zero.mpr y.den_nz
  rw [rsubQ, Rat.mkRat_eq_div]
  push_cast
  conv_rhs => rw [← Rat.num_div_den x, ← Rat.num_div_den y]
  field_simp
  ring

theorem rmulQ_eq (x y : ℚ) : rmulQ x y = x * y := by
  have hx : (x.den : ℚ) ≠ 0 := Nat.cast_ne_zero.mpr x.den_nz
  have hy : (y.den : ℚ) ≠ 0 := Nat.cast_ne_zero.mpr y.den_nz
  rw [rmulQ, Rat.mkRat_eq_div]
  push_cast
  conv_rhs => rw [← Rat.num_div_den x, ← Rat.num_div_den y]
  field_simp

theorem rdivQ_eq (x y : ℚ) : rdivQ x y = x / y := by
  rcases eq_or_ne y 0 with hy | hy
  · subst hy
    rw [rdivQ, Rat.divInt_eq_div]
    simp
  · have hx : (x.den : ℚ) ≠ 0 := Nat.cast_ne_zero.mpr x.den_nz
    have hyd : (y.den : ℚ) ≠ 0 := Nat.cast_ne_zero.mpr y.den_nz
    have hyn : (y.num : ℚ) ≠ 0 := by
      simpa [Rat.num_eq_zero] using hy
    rw [rdivQ, Rat.divInt_eq_div]
    push_cast
    conv_rhs => rw [← Rat.num_div_den x, ← Rat.num_div_den y]
    field_simp

theorem rabsQ_eq (x : ℚ) : rabsQ x = |x| := by
  rw [rabsQ]
  split_ifs with h
  · exact (abs_of_neg h).symm
  · exact (abs_of_nonneg (not_lt.1 h)).symm

theorem rsumQ_eq (l : List ℚ) : rsumQ l = l.sum := by
  induction l with
  | nil => rfl
  | cons a t ih =>
    simp only [rsumQ, List.foldr_cons, List.sum_cons] at ih ⊢
    rw [raddQ_eq, ih]

/-!
## Structural lemmas for the NaN-aware cell operations
-/

@[simp] theorem qadd_some_some (x y : ℚ) :
    qadd (some x) (some y) = some (x + y) := by
  simp [qadd, raddQ_eq]

@[simp] theorem qadd_none_left (b : NVal) : qadd none b = none := rfl

@[simp] theorem qadd_none_right (a : NVal) : qadd a none = none := by
  cases a <;> rfl

@[simp] theorem qsub_some_some (x y : ℚ) :
    qsub (some x) (some y) = some (x - y) := by
  simp [qsub, rsubQ_eq]

@[simp] theorem qsub_none_left (b : NVal) : qsub none b = none := rfl

@[simp] theorem qsub_none_right (a : NVal) : qsub a none = none := by
  cases a <;> rfl

@[simp] theorem qmul_some_some (x y : ℚ) :
    qmul (some x) (some y) = some (x * y) := by
  simp [qmul, rmulQ_eq]

@[simp] theorem qmul_none_left (b : NVal) : qmul none b = none := rfl

@[simp] theorem qmul_none_right (a : NVal) : qmul a none = none := by
  cases a <;> rfl

@[simp] theorem qdiv_some_some (x y : ℚ) :
    qdiv (some x) (some y) = if y = 0 then none else some (x / y) := by
  by_cases hy : y = 0 <;> simp [qdiv, rdivQ_eq, hy]

@[simp] theorem qdiv_none_left (b : NVal) : qdiv none b = none := rfl

@[simp] theorem qdiv_none_right (a : NVal) : qdiv a none = none := by
  cases a <;> rfl

@[simp] theorem qabs_some (x : ℚ) : qabs (some x) = some |x| := by
  simp [qabs, rabsQ_eq]

@[simp] theorem qabs_none : qabs none = none := rfl

theorem qadd_comm (a b : NVal) : qadd a b = qadd b a := by
  cases a <;> cases b <;> simp [add_comm]

theorem qmul_comm (a b : NVal) : qmul a b = qmul b a := by
  cases a <;> cases b <;> simp [mul_comm]

theorem alphaC_eq : alphaC = 1 / 10 := by
  rw [alphaC, Rat.mkRat_eq_div]
  norm_num

theorem thresholdC_eq : thresholdC = 1 / 1000 := by
  rw [thresholdC, Rat.mkRat_eq_div]
  norm_num

/-!
## The constraint mask
-/

/-- Pointwise description of the constraint mask as implemented: every
cell in a constrained row or column — the diagonal included — reverts to
`TFCoopInit`, everything else is untouched (the diagonal "restore" writes
an aliased, already-overwritten view onto itself). -/
theorem maskPPI_spec {t : ℕ} (S : Finset (Fin t))
    (TFCoopInit M : Fin t → Fin t → NVal) (i j : Fin t) :
    maskPPI S TFCoopInit M i j =
      if i ∈ S ∨ j ∈ S then TFCoopInit i j else M i j := by
  simp only [maskPPI]
  by_cases hij : i = j
  · subst hij
    by_cases hi : i ∈ S <;> simp [hi]
  · by_cases hi : i ∈ S <;> by_cases hj : j ∈ S <;> simp [hij, hi, hj]

/-- C9: the PPI constraint mask is idempotent: a second application
(without an intervening blend) returns the identical matrix. -/
theorem maskPPI_idempotent {t : ℕ} (S : Finset (Fin t))
    (TFCoopInit M : Fin t → Fin t → NVal) :
    maskPPI S TFCoopInit (maskPPI S TFCoopInit M) = maskPPI S TFCoopInit M := by
  funext i j
  simp only [maskPPI_spec]
  by_cases hS : i ∈ S ∨ j ∈ S <;> simp [hS]

/-- C3: the code does not preserve the post-blend diagonal at constrained
indices.  `ppi_matrix.diagonal()` is a read-only view, so the final
`np.fill_diagonal` writes the already-overwritten diagonal onto itself.
At the 1×1 state below (`ppi = [[4]]`, `motif = [[1]]`, `corr = [[1]]`,
constrained index set `{0}`, pre-loop copy `[[4]]`) the iteration runs
(hamming `9/26 > 0.001`), the post-blend diagonal is NaN (the `nanstd` of
an empty row), yet the masked matrix keeps the pre-loop value `4` there:
the claimed save/restore of the diagonal does not happen. -/
theorem pumaStep_ppi_mask_diag_bug :
    nvalGT (computedHamming id stateFour) thresholdC = true ∧
    (pumaStep id id {0} stateFour.ppi_matrix stateFour).ppi_matrix 0 0 =
      stateFour.ppi_matrix 0 0 ∧
    ppiBlend id id stateFour 0 0 = none ∧
    stateFour.ppi_matrix 0 0 ≠ (none : NVal) :=
  ⟨rfl, rfl, rfl, fun h => Option.noConfusion h⟩

/-!
## The diagonal stabilizer
-/

/-- `nanstdList` only depends on the non-NaN entries. -/
theorem nanstdList_congr (sqrtK : ℚ → ℚ) (l₁ l₂ : List NVal)
    (h : l₁.filterMap id = l₂.filterMap id) :
    nanstdList sqrtK l₁ = nanstdList sqrtK l₂ := by
  simp only [nanstdList, h]

/-- Blanking the diagonal position before collecting the defined entries
is the same as dropping the diagonal position first. -/
theorem filterMap_id_diag_blank {n : ℕ} (D : Fin n → Fin n → NVal)
    (i : Fin n) (l : List (Fin n)) :
    (l.map fun c => if i = c then none else D i c).filterMap id =
      ((l.filter fun c => decide (c ≠ i)).map (D i)).filterMap id := by
  induction l with
  | nil => rfl
  | cons c tl ih =>
    by_cases hic : i = c
    · subst hic
      simp [ih]
    · have hci : (c ≠ i) := fun h => hic h.symm
      cases hD : D i c <;>
        simp [hic, hci, hD, List.filterMap_cons, ih]

/-- C6: the diagonal stabilizer overwrites each diagonal entry `i` with
`std_i * num * exp(2*alpha*step)`, where `std_i` is the NaN-ignoring
standard deviation of row `i`'s non-diagonal entries, and leaves every
off-diagonal entry unchanged. -/
theorem update_diagonal_spec (sqrtK expK : ℚ → ℚ) {n : ℕ}
    (D : Fin n → Fin n → NVal) (num alpha : ℚ) (step : ℕ) (i j : Fin n) :
    update_diagonal sqrtK expK D num alpha step i j =
      if i = j then
        qmul
          (qmul
            (nanstdList sqrtK
              (((List.finRange n).filter fun c => decide (c ≠ i)).map (D i)))
            (some num))
          (some (expK (rmulQ (rmulQ 2 alpha) (step : ℚ))))
      else D i j := by
  simp only [update_diagonal]
  by_cases hij : i = j
  · simp only [hij, if_pos rfl]
    rw [nanstdList_congr sqrtK _ _ (filterMap_id_diag_blank D j (List.finRange n))]
    simp
  · simp [hij]

/-!
## Affinity-transform self-consistency
-/

/-- C8: the single-argument affinity transform agrees with the
two-argument transform applied to `(X, Xᵗ)` (the normalizers coincide, so
in fact at every entry; the claim's off-diagonal restriction follows). -/
theorem t_function_self_consistent (sqrtK : ℚ → ℚ) {p k : ℕ}
    (X : Fin p → Fin k → NVal) (i j : Fin p) (_hij : i ≠ j) :
    t_function1 sqrtK X i j = t_function2 sqrtK X (fun c r => X r c) i j := rfl

theorem t_function_self_consistent_witness :
    ((0 : Fin 2) ≠ 1) ∧
      t_function1 id exM2 0 1 = t_function2 id exM2 (fun c r => exM2 r c) 0 1 :=
  ⟨by decide, t_function_self_consistent id exM2 0 1 (by decide)⟩

/-!
## The terminating iteration (frame of steps 4a–4e)
-/

/-- Every branch of an iteration stores the freshly computed hamming. -/
theorem pumaStep_hamming (sqrtK expK : ℚ → ℚ) {t g : ℕ} (S : Finset (Fin t))
    (TFCoopInit : Fin t → Fin t → NVal) (s : PumaState t g) :
    (pumaStep sqrtK expK S TFCoopInit s).hamming = computedHamming sqrtK s := by
  simp only [pumaStep]
  split <;> rfl

/-- Every branch of an iteration performs the step-3 motif blend. -/
theorem pumaStep_motif (sqrtK expK : ℚ → ℚ) {t g : ℕ} (S : Finset (Fin t))
    (TFCoopInit : Fin t → Fin t → NVal) (s : PumaState t g) :
    (pumaStep sqrtK expK S TFCoopInit s).motif_matrix = motifBlend sqrtK s := by
  simp only [pumaStep]
  split <;> rfl

/-- C4: on the iteration whose computed hamming is not above `0.001`, the
motif blend is still performed, PPI and correlation matrices are left
exactly unchanged, and the loop terminates with that iteration's state no
matter how much fuel remains. -/
theorem puma_loop_final_iteration (sqrtK expK : ℚ → ℚ) {t g : ℕ}
    (S : Finset (Fin t)) (TFCoopInit : Fin t → Fin t → NVal) (s : PumaState t g)
    (hEnter : nvalGT s.hamming thresholdC = true)
    (hConv : nvalGT (computedHamming sqrtK s) thresholdC = false) :
    (pumaStep sqrtK expK S TFCoopInit s).motif_matrix = motifBlend sqrtK s ∧
    (pumaStep sqrtK expK S TFCoopInit s).ppi_matrix = s.ppi_matrix ∧
    (pumaStep sqrtK expK S TFCoopInit s).correlation_matrix = s.correlation_matrix ∧
    ∀ fuel : ℕ,
      puma_loop sqrtK expK S TFCoopInit (fuel + 1) s =
        pumaStep sqrtK expK S TFCoopInit s := by
  have hstep : pumaStep sqrtK expK S TFCoopInit s =
      { correlation_matrix := s.correlation_matrix
        motif_matrix := motifBlend sqrtK s
        ppi_matrix := s.ppi_matrix
        step := s.step + 1
        hamming := computedHamming sqrtK s } := by
    simp [pumaStep, hConv]
  refine ⟨pumaStep_motif sqrtK expK S TFCoopInit s, ?_, ?_, ?_⟩
  · rw [hstep]
  · rw [hstep]
  · have hafter : ∀ f : ℕ,
        puma_loop sqrtK expK S TFCoopInit f (pumaStep sqrtK expK S TFCoopInit s) =
          pumaStep sqrtK expK S TFCoopInit s := by
      intro f
      cases f with
      | zero => rfl
      | succ f =>
        have hh : nvalGT (pumaStep sqrtK expK S TFCoopInit s).hamming thresholdC
            = false := by
          rw [pumaStep_hamming]; exact hConv
        simp [puma_loop, hh]
    intro fuel
    simp [puma_loop, hEnter, hafter fuel]

theorem puma_loop_final_iteration_witness :
    nvalGT stateOne.hamming thresholdC = true ∧
    nvalGT (computedHamming id stateOne) thresholdC = false ∧
    puma_loop id id (∅ : Finset (Fin 1)) stateOne.ppi_matrix 5 stateOne =
      pumaStep id id ∅ stateOne.ppi_matrix stateOne :=
  ⟨rfl, rfl,
    (puma_loop_final_iteration id id ∅ stateOne.ppi_matrix stateOne rfl rfl).2.2.2 4⟩

/-!
## Blend movement versus the hamming statistic
-/

theorem alphaC_nonneg : 0 ≤ alphaC := by
  rw [alphaC_eq]; norm_num

theorem blend_change (al : ℚ) (m w : NVal) :
    qsub (qadd (qmul (some (rsubQ 1 al)) m) (qmul (some al) w)) m =
      qmul (some al) (qsub w m) := by
  cases m with
  | none => simp
  | some x =>
    cases w with
    | none => simp
    | some y =>
      simp [rsubQ_eq]
      ring

theorem qabs_qmul_nonneg (al : ℚ) (hal : 0 ≤ al) (a : NVal) :
    qabs (qmul (some al) a) = qmul (some al) (qabs a) := by
  cases a <;> simp [abs_mul, abs_of_nonneg hal]

theorem qabs_qsub_comm (a b : NVal) : qabs (qsub a b) = qabs (qsub b a) := by
  cases a <;> cases b <;> simp [abs_sub_comm]

theorem nsum_qmul_const (c : ℚ) (l : List NVal) :
    nsum (l.map fun a => qmul (some c) a) = qmul (some c) (nsum l) := by
  induction l with
  | nil => simp [nsum]
  | cons a tl ih =>
    show qadd (qmul (some c) a) (nsum (tl.map fun a => qmul (some c) a)) =
      qmul (some c) (qadd a (nsum tl))
    rw [ih]
    cases a with
    | none => simp
    | some x =>
      cases hm : nsum tl with
      | none => simp
      | some m => simp [mul_add]

theorem nsumFin_qmul_const (c : ℚ) (k : ℕ) (f : Fin k → NVal) :
    nsumFin k (fun i => qmul (some c) (f i)) = qmul (some c) (nsumFin k f) := by
  simp only [nsumFin]
  have hmm : (List.finRange k).map (fun i => qmul (some c) (f i)) =
      ((List.finRange k).map f).map fun a => qmul (some c) a := by
    rw [List.map_map]
    rfl
  rw [hmm]
  exact nsum_qmul_const c _

theorem qdiv_qmul_const (c : ℚ) (a b : NVal) :
    qdiv (qmul (some c) a) b = qmul (some c) (qdiv a b) := by
  cases a with
  | none => simp
  | some x =>
    cases b with
    | none => simp
    | some y =>
      by_cases hy : y = 0 <;> simp [hy, mul_div_assoc]

theorem totMeanF_qmul_const (c : ℚ) {t g : ℕ} (F : Fin t → Fin g → NVal) :
    totMeanF (fun i j => qmul (some c) (F i j)) = qmul (some c) (totMeanF F) := by
  simp only [totMeanF]
  have h1 : (fun i : Fin t => nsumFin g fun j => qmul (some c) (F i j)) =
      fun i => qmul (some c) (nsumFin g (F i)) :=
    funext fun i => nsumFin_qmul_const c g (F i)
  rw [h1, nsumFin_qmul_const, qdiv_qmul_const]

/-- C10: in every iteration, the change the step-3 blend applies to the
motif matrix is exactly `alpha` times the distance to `W`: pointwise
`after - before = alpha * (W - before)`, and the mean absolute cell-wise
change equals `alpha * hamming` where `hamming` is the statistic the
`0.001` threshold is tested against. -/
theorem motif_step_movement (sqrtK expK : ℚ → ℚ) {t g : ℕ}
    (S : Finset (Fin t)) (TFCoopInit : Fin t → Fin t → NVal)
    (s : PumaState t g) :
    (∀ i j,
      qsub ((pumaStep sqrtK expK S TFCoopInit s).motif_matrix i j)
          (s.motif_matrix i j) =
        qmul (some alphaC) (qsub (pumaW sqrtK s i j) (s.motif_matrix i j))) ∧
    totMeanF (fun i j =>
        qabs (qsub ((pumaStep sqrtK expK S TFCoopInit s).motif_matrix i j)
          (s.motif_matrix i j))) =
      qmul (some alphaC) (computedHamming sqrtK s) := by
  have hmot := pumaStep_motif sqrtK expK S TFCoopInit s
  constructor
  · intro i j
    rw [hmot]
    exact blend_change alphaC (s.motif_matrix i j) (pumaW sqrtK s i j)
  · simp only [hmot]
    have hpt : (fun i j =>
        qabs (qsub (motifBlend sqrtK s i j) (s.motif_matrix i j))) =
        fun i j => qmul (some alphaC)
          (qabs (qsub (s.motif_matrix i j) (pumaW sqrtK s i j))) := by
      funext i j
      rw [show motifBlend sqrtK s i j =
        qadd (qmul (some (rsubQ 1 alphaC)) (s.motif_matrix i j))
          (qmul (some alphaC) (pumaW sqrtK s i j)) from rfl]
      rw [blend_change, qabs_qmul_nonneg alphaC alphaC_nonneg, qabs_qsub_comm]
    rw [hpt, totMeanF_qmul_const]
    rfl

/-!
## The normalizer's four-way NaN fallback
-/

/-- C5: per cell, the normalizer returns `(colZ+rowZ)/sqrt 2` when both
axis z-scores are defined, `(rowZ+totalZ)/sqrt 2` when only `colZ` is NaN,
`(colZ+totalZ)/sqrt 2` when only `rowZ` is NaN, and `2*colZ/sqrt 2`
(itself NaN) when both are; the output always has the input's shape and
no error is possible. -/
theorem normalize_network_cases (sqrtK : ℚ → ℚ) {m n : ℕ}
    (x : Fin m → Fin n → NVal) (i : Fin m) (j : Fin n) :
    _normalize_network sqrtK x i j =
      if norm_colF sqrtK x i j = none then
        if norm_rowF sqrtK x i j = none then
          qdiv (qmul (some 2) (norm_colF sqrtK x i j)) (some (sqrtK 2))
        else
          qdiv (qadd (norm_rowF sqrtK x i j) (norm_totalF sqrtK x i j))
            (some (sqrtK 2))
      else if norm_rowF sqrtK x i j = none then
        qdiv (qadd (norm_colF sqrtK x i j) (norm_totalF sqrtK x i j))
          (some (sqrtK 2))
      else
        qdiv (qadd (norm_colF sqrtK x i j) (norm_rowF sqrtK x i j))
          (some (sqrtK 2)) := by
  simp only [_normalize_network]
  by_cases hc : norm_colF sqrtK x i j = none <;>
    by_cases hr : norm_rowF sqrtK x i j = none <;>
      simp [hc, hr]

/-!
## Symmetry preservation
-/

theorem dotNV_comm {k : ℕ} (x y : Fin k → NVal) : dotNV x y = dotNV y x := by
  simp only [dotNV]
  congr 1
  funext i
  exact qmul_comm (x i) (y i)

/-- The single-argument affinity transform is symmetric for any input. -/
theorem t_function1_symm (sqrtK : ℚ → ℚ) {p k : ℕ}
    (x : Fin p → Fin k → NVal) (i j : Fin p) :
    t_function1 sqrtK x i j = t_function1 sqrtK x j i := by
  simp only [t_function1]
  rw [dotNV_comm (x i) (x j),
    qadd_comm (nsumFin k fun c => qmul (x j c) (x j c))
      (nsumFin k fun c => qmul (x i c) (x i c))]

/-- The diagonal stabilizer does not touch off-diagonal entries. -/
theorem update_diagonal_ne (sqrtK expK : ℚ → ℚ) {n : ℕ}
    (D : Fin n → Fin n → NVal) (num alpha : ℚ) (step : ℕ) {i j : Fin n}
    (hij : i ≠ j) :
    update_diagonal sqrtK expK D num alpha step i j = D i j := by
  simp [update_diagonal, hij]

/-- The diagonal stabilizer preserves symmetry. -/
theorem update_diagonal_symm (sqrtK expK : ℚ → ℚ) {n : ℕ}
    (D : Fin n → Fin n → NVal) (num alpha : ℚ) (step : ℕ)
    (hD : ∀ a b, D a b = D b a) (i j : Fin n) :
    update_diagonal sqrtK expK D num alpha step i j =
      update_diagonal sqrtK expK D num alpha step j i := by
  by_cases hij : i = j
  · rw [hij]
  · have hji : j ≠ i := fun h => hij h.symm
    rw [update_diagonal_ne sqrtK expK D num alpha step hij,
      update_diagonal_ne sqrtK expK D num alpha step hji]
    exact hD i j

/-- The constraint mask preserves symmetry. -/
theorem maskPPI_symm {t : ℕ} (S : Finset (Fin t))
    (TFCoopInit M : Fin t → Fin t → NVal)
    (hI : ∀ a b, TFCoopInit a b = TFCoopInit b a)
    (hM : ∀ a b, M a b = M b a) (i j : Fin t) :
    maskPPI S TFCoopInit M i j = maskPPI S TFCoopInit M j i := by
  rw [maskPPI_spec, maskPPI_spec]
  by_cases hS : i ∈ S ∨ j ∈ S
  · have hS' : j ∈ S ∨ i ∈ S := hS.symm
    simp [hS, hS', hI i j]
  · have hS' : ¬(j ∈ S ∨ i ∈ S) := fun h => hS h.symm
    simp [hS, hS', hM i j]

/-- One iteration preserves symmetry of the PPI and correlation matrices
when the pre-loop PPI copy is symmetric. -/
theorem pumaStep_symm (sqrtK expK : ℚ → ℚ) {t g : ℕ} (S : Finset (Fin t))
    (TFCoopInit : Fin t → Fin t → NVal) (s : PumaState t g)
    (hI : ∀ a b, TFCoopInit a b = TFCoopInit b a)
    (hP : ∀ a b, s.ppi_matrix a b = s.ppi_matrix b a)
    (hC : ∀ a b, s.correlation_matrix a b = s.correlation_matrix b a) :
    (∀ a b, (pumaStep sqrtK expK S TFCoopInit s).ppi_matrix a b =
        (pumaStep sqrtK expK S TFCoopInit s).ppi_matrix b a) ∧
    (∀ a b, (pumaStep sqrtK expK S TFCoopInit s).correlation_matrix a b =
        (pumaStep sqrtK expK S TFCoopInit s).correlation_matrix b a) := by
  by_cases hcond : nvalGT (computedHamming sqrtK s) thresholdC = true
  · have hppi : (pumaStep sqrtK expK S TFCoopInit s).ppi_matrix =
        maskPPI S TFCoopInit (ppiBlend sqrtK expK s) := by
      simp only [pumaStep, hcond, if_true]
    have hcorr : (pumaStep sqrtK expK S TFCoopInit s).correlation_matrix =
        corrBlend sqrtK expK s := by
      simp only [pumaStep, hcond, if_true]
    have hblend : ∀ a b, ppiBlend sqrtK expK s a b = ppiBlend sqrtK expK s b a := by
      intro a b
      simp only [ppiBlend]
      rw [hP a b,
        update_diagonal_symm sqrtK expK
          (t_function1 sqrtK (motifBlend sqrtK s)) (t : ℚ) alphaC s.step
          (t_function1_symm sqrtK (motifBlend sqrtK s)) a b]
    have hcb : ∀ a b, corrBlend sqrtK expK s a b = corrBlend sqrtK expK s b a := by
      intro a b
      simp only [corrBlend]
      rw [hC a b,
        update_diagonal_symm sqrtK expK
          (t_function1 sqrtK fun c r => motifBlend sqrtK s r c) (g : ℚ) alphaC
          s.step
          (t_function1_symm sqrtK fun c r => motifBlend sqrtK s r c) a b]
    refine ⟨fun a b => ?_, fun a b => ?_⟩
    · rw [hppi]
      exact maskPPI_symm S TFCoopInit (ppiBlend sqrtK expK s) hI hblend a b
    · rw [hcorr]
      exact hcb a b
  · have hfalse : nvalGT (computedHamming sqrtK s) thresholdC = false := by
      cases h : nvalGT (computedHamming sqrtK s) thresholdC
      · rfl
      · exact absurd h hcond
    have hppi : (pumaStep sqrtK expK S TFCoopInit s).ppi_matrix = s.ppi_matrix := by
      simp [pumaStep, hfalse]
    have hcorr : (pumaStep sqrtK expK S TFCoopInit s).correlation_matrix =
        s.correlation_matrix := by
      simp [pumaStep, hfalse]
    rw [hppi, hcorr]
    exact ⟨hP, hC⟩

/-- C7: for symmetric starting PPI and correlation matrices (and a
symmetric pre-loop PPI copy), both stay exactly symmetric after every
number of loop iterations. -/
theorem puma_loop_symmetry (sqrtK expK : ℚ → ℚ) {t g : ℕ} (S : Finset (Fin t))
    (TFCoopInit : Fin t → Fin t → NVal) (fuel : ℕ) (s : PumaState t g)
    (hI : ∀ a b, TFCoopInit a b = TFCoopInit b a)
    (hP : ∀ a b, s.ppi_matrix a b = s.ppi_matrix b a)
    (hC : ∀ a b, s.correlation_matrix a b = s.correlation_matrix b a) :
    (∀ a b, (puma_loop sqrtK expK S TFCoopInit fuel s).ppi_matrix a b =
        (puma_loop sqrtK expK S TFCoopInit fuel s).ppi_matrix b a) ∧
    (∀ a b, (puma_loop sqrtK expK S TFCoopInit fuel s).correlation_matrix a b =
        (puma_loop sqrtK expK S TFCoopInit fuel s).correlation_matrix b a) := by
  induction fuel generalizing s with
  | zero => exact ⟨hP, hC⟩
  | succ f ih =>
    by_cases hh : nvalGT s.hamming thresholdC = true
    · have heq : puma_loop sqrtK expK S TFCoopInit (f + 1) s =
          puma_loop sqrtK expK S TFCoopInit f (pumaStep sqrtK expK S TFCoopInit s) := by
        simp [puma_loop, hh]
      rw [heq]
      obtain ⟨h1, h2⟩ := pumaStep_symm sqrtK expK S TFCoopInit s hI hP hC
      exact ih (pumaStep sqrtK expK S TFCoopInit s) h1 h2
    · have hfalse : nvalGT s.hamming thresholdC = false := by
        cases h : nvalGT s.hamming thresholdC
        · rfl
        · exact absurd h hh
      have heq : puma_loop sqrtK expK S TFCoopInit (f + 1) s = s := by
        simp [puma_loop, hfalse]
      rw [heq]
      exact ⟨hP, hC⟩

theorem puma_loop_symmetry_witness :
    (∀ a b : Fin 1, stateOne.ppi_matrix a b = stateOne.ppi_matrix b a) ∧
    (∀ a b : Fin 1,
      stateOne.correlation_matrix a b = stateOne.correlation_matrix b a) ∧
    ((∀ a b, (puma_loop id id ∅ stateOne.ppi_matrix 3 stateOne).ppi_matrix a b =
        (puma_loop id id ∅ stateOne.ppi_matrix 3 stateOne).ppi_matrix b a) ∧
     (∀ a b,
        (puma_loop id id ∅ stateOne.ppi_matrix 3 stateOne).correlation_matrix a b =
        (puma_loop id id ∅ stateOne.ppi_matrix 3 stateOne).correlation_matrix b a)) :=
  ⟨fun _ _ => rfl, fun _ _ => rfl,
    puma_loop_symmetry id id ∅ stateOne.ppi_matrix 3 stateOne
      (fun _ _ => rfl) (fun _ _ => rfl) (fun _ _ => rfl)⟩

/-!
## Result-expander alignment (claim on the expanded table)
-/

/-- C1 (amended): row `k = j*t + i` of the expanded table pairs label
(TF `i`, gene `j`) with the prior and posterior weights at matrix cell
`(i, j)`.  In this flat ordering the TF index varies fastest — all TFs for
gene 0 first, then all TFs for gene 1 — which is the Fortran-order
flattening of a TFs-by-genes matrix; the label vectors are aligned to it. -/
theorem export_row_alignment (t g : ℕ) (unique_tfs gene_names : ℕ → String)
    (motif_u motif_n : ℕ → ℕ → NVal) (i j : ℕ) (hi : i < t) (_hj : j < g) :
    export_puma_results t unique_tfs gene_names motif_u motif_n (j * t + i) =
      (unique_tfs i, gene_names j, motif_u i j, motif_n i j) := by
  have ht : 0 < t := lt_of_le_of_lt (Nat.zero_le i) hi
  have hmod : (j * t + i) % t = i := by
    rw [Nat.add_comm, Nat.add_mul_mod_self_right, Nat.mod_eq_of_lt hi]
  have hdiv : (j * t + i) / t = j := by
    rw [Nat.add_comm, Nat.add_mul_div_right i j ht, Nat.div_eq_of_lt hi,
      Nat.zero_add]
  simp only [export_puma_results, flattenC, flattenF, repeatV, tileMat,
    hmod, hdiv]

theorem export_row_alignment_witness :
    (1 < 2 ∧ 0 < 2) ∧
    export_puma_results 2 tfLabels geneLabels weightM weightM (0 * 2 + 1) =
      (tfLabels 1, geneLabels 0, weightM 1 0, weightM 1 0) :=
  ⟨⟨by decide, by decide⟩,
    export_row_alignment 2 2 tfLabels geneLabels weightM weightM 1 0
      (by decide) (by decide)⟩

/-- C1 counterexample: with TFs `A, B` and genes `x, y`, row 1 of the
expanded table is (TF `B`, gene `x`, weight at cell (1,0)); the ordering
"all genes for TF 0 first, then all genes for TF 1" would instead place
(TF `A`, gene `y`, weight at cell (0,1)) there. -/
theorem export_row_order_counterexample :
    export_puma_results 2 tfLabels geneLabels weightM weightM 1 =
      ("B", "x", weightM 1 0, weightM 1 0) ∧
    export_puma_results 2 tfLabels geneLabels weightM weightM 1 ≠
      ("A", "y", weightM 0 1, weightM 0 1) := by
  constructor
  · rfl
  · intro h
    have hfst : ("B" : String) = "A" := congrArg (fun r => r.1) h
    exact absurd hfst (by decide)

/-!
## Constraint-index lookup
-/

/-- `np.argsort` of an already strictly sorted array is the identity
permutation. -/
theorem argsortM_of_sorted {α : Type} [LinearOrder α] [Inhabited α]
    (names : List α) (hs : names.Sorted (· < ·)) :
    argsortM names = List.range names.length := by
  set r : ℕ → ℕ → Prop :=
    fun i j => names.getD i default ≤ names.getD j default with hrdef
  haveI : IsTotal ℕ r := ⟨fun a b => le_total _ _⟩
  haveI : IsTrans ℕ r := ⟨fun a b c hab hbc => le_trans hab hbc⟩
  haveI : IsAntisymm ℕ (· < ·) := ⟨fun a b h1 h2 => absurd h2 (lt_asymm h1)⟩
  have hperm : List.Perm (argsortM names) (List.range names.length) :=
    List.perm_insertionSort r _
  have hsr : (argsortM names).Sorted r := List.sorted_insertionSort r _
  have hmemn : ∀ x ∈ argsortM names, x < names.length := by
    intro x hx
    exact List.mem_range.mp (hperm.mem_iff.mp hx)
  have hle : (argsortM names).Sorted (· ≤ ·) := by
    refine hsr.imp_of_mem ?_
    intro a b ha hb hab
    have ha' := hmemn a ha
    have hb' := hmemn b hb
    by_contra hba
    have hba' : b < a := Nat.lt_of_not_le hba
    have hlt : names.get ⟨b, hb'⟩ < names.get ⟨a, ha'⟩ :=
      hs.get_strictMono (by exact hba')
    rw [hrdef] at hab
    rw [List.getD_eq_getElem names default ha',
      List.getD_eq_getElem names default hb'] at hab
    exact absurd hab (not_le.mpr hlt)
  have hnodup : (argsortM names).Nodup :=
    hperm.nodup_iff.mpr (List.nodup_range _)
  have hlt : (argsortM names).Sorted (· < ·) := hle.lt_of_le hnodup
  exact List.eq_of_perm_of_sorted hperm hlt (List.sorted_lt_range _)

/-- Reading every position of a list through `getD` reproduces the list. -/
theorem map_getD_range {α : Type} [Inhabited α] (l : List α) :
    (List.range l.length).map (fun i => l.getD i default) = l := by
  apply List.ext_getElem
  · simp
  · intro k h1 h2
    simp only [List.getElem_map, List.getElem_range]
    exact List.getD_eq_getElem l default h2

/-- In a strictly sorted list, the left insertion position of a member is
its index. -/
theorem countP_lt_eq_indexOf {α : Type} [LinearOrder α] [DecidableEq α]
    (l : List α) (hs : l.Sorted (· < ·)) {v : α} (hv : v ∈ l) :
    (l.countP fun x => decide (x < v)) = l.indexOf v := by
  induction l with
  | nil => cases hv
  | cons a tl ih =>
    rw [List.sorted_cons] at hs
    obtain ⟨ha, hs'⟩ := hs
    rcases List.mem_cons.mp hv with hva | hvtl
    · subst hva
      have h0 : (tl.countP fun x => decide (x < v)) = 0 := by
        apply List.countP_eq_zero.mpr
        intro x hx
        simp only [decide_eq_true_eq]
        exact not_lt.mpr (le_of_lt (ha x hx))
      rw [List.countP_cons, h0, List.indexOf_cons_self]
      simp
    · have hav : a < v := ha v hvtl
      have hne : a ≠ v := ne_of_lt hav
      rw [List.countP_cons, List.indexOf_cons_ne tl hne, ih hs' hvtl]
      simp [hav]

/-- C2 (amended): only when every miRNA identifier occurs among the TF
names does the construction succeed with exactly the positions of those
names; the hypotheses hold for the source's inputs, whose TF axis is
`sorted(set(...))`. -/
theorem s1Model_all_present {α : Type} [LinearOrder α] [Inhabited α]
    [DecidableEq α] (TFNames miR : List α) (hs : TFNames.Sorted (· < ·))
    (hall : ∀ v ∈ miR, v ∈ TFNames) :
    s1Model TFNames miR = some (claimedS1 TFNames miR) := by
  have hsort := argsortM_of_sorted TFNames hs
  have hmap1 : (miR.map fun v => searchsortedLeft TFNames v) =
      miR.map fun v => TFNames.indexOf v :=
    List.map_congr_left fun v hv => countP_lt_eq_indexOf TFNames hs (hall v hv)
  have hfilter : (miR.filter fun v => decide (v ∈ TFNames)) = miR :=
    List.filter_eq_self.mpr fun v hv => by simpa using hall v hv
  simp only [s1Model, hsort, map_getD_range TFNames, hmap1]
  have hcond : ((miR.map fun v => TFNames.indexOf v).all
      fun p => p < (List.range TFNames.length).length) = true := by
    rw [List.all_eq_true]
    intro p hp
    obtain ⟨v, hv, rfl⟩ := List.mem_map.mp hp
    simpa [List.length_range] using List.indexOf_lt_length.mpr (hall v hv)
  rw [if_pos hcond]
  have hback : ((miR.map fun v => TFNames.indexOf v).map
      fun p => (List.range TFNames.length).getD p 0) =
      miR.map fun v => TFNames.indexOf v := by
    rw [List.map_map]
    apply List.map_congr_left
    intro v hv
    have hvlt : TFNames.indexOf v < TFNames.length :=
      List.indexOf_lt_length.mpr (hall v hv)
    simp only [Function.comp]
    rw [List.getD_eq_getElem _ 0 (by simpa [List.length_range] using hvlt)]
    simp
  rw [hback, claimedS1, hfilter]

theorem s1Model_all_present_witness :
    ([0, 2] : List ℕ).Sorted (· < ·) ∧
    (∀ v ∈ ([2] : List ℕ), v ∈ ([0, 2] : List ℕ)) ∧
    s1Model [0, 2] [2] = some (claimedS1 [0, 2] [2]) :=
  ⟨by decide, by decide,
    s1Model_all_present [0, 2] [2] (by decide) (by decide)⟩

/-- C2 counterexample: `1` is absent from the TF axis `[0, 2]`, yet the
construction does not drop it — it contributes the insertion position
`1`, the index of the unrelated TF `2`, where the claim demands the empty
set of positions. -/
theorem s1Model_missing_counterexample :
    s1Model ([0, 2] : List ℕ) [1] = some [1] ∧
    claimedS1 ([0, 2] : List ℕ) [1] = [] ∧
    s1Model ([0, 2] : List ℕ) [1] ≠ some (claimedS1 ([0, 2] : List ℕ) [1]) :=
  ⟨by decide, by decide, by decide⟩
